import Mathlib

set_option maxRecDepth 40000

/-!
Shallow embedding of the photon cellular automaton in `src/main.py`
("Photon CA — Directional Emission & Propagation").

The engine state consists of two length-`N` integer arrays `electric` and
`magnetic` (holding 0/1 flags) and one length-`N` array of integer direction
triples, for `N = GRID_SIZE ** 3` cells of a periodic cubic grid.  The
operations modelled here are the injection handlers (`inject_electric` /
`inject_ui`, with the randomly drawn direction made an explicit parameter),
the transition `step`, and the history sampling done by `update_plots`.
Arrays are modelled as `List`s indexed exactly as numpy's flat row-major
order (`np.ravel_multi_index` / `np.indices`).
-/

namespace PhotonCA

/-- Grid side length `GRID_SIZE = 7` from `src/main.py`. -/
def GRID_SIZE : Nat := 7

/-- Total number of cells, `N = GRID_SIZE**3`. -/
def N : Nat := GRID_SIZE ^ 3

/-- A direction vector `(dx, dy, dz)` of integers. -/
abbrev Dir := Int × Int × Int

/-- The zero direction, numpy's initial value for a `direction` row. -/
def zeroDir : Dir := (0, 0, 0)

/-- The engine state: `self.electric`, `self.magnetic`, `self.direction`. -/
structure FieldState where
  electric : List Nat
  magnetic : List Nat
  direction : List Dir
deriving DecidableEq

/-- Row-major linearization `np.ravel_multi_index((x, y, z), (n, n, n))`
for `n = GRID_SIZE`: `(x*n + y)*n + z`. -/
def linearize (x y z : Nat) : Nat := (x * GRID_SIZE + y) * GRID_SIZE + z

/-- Inverse of `linearize`: the coordinate triple `coords[idx]` produced by
`np.indices((n, n, n)).reshape(3, -1).T`. -/
def delinearize (i : Nat) : Nat × Nat × Nat :=
  (i / (GRID_SIZE * GRID_SIZE), i / GRID_SIZE % GRID_SIZE, i % GRID_SIZE)

/-- Python's `c % n` for `n > 0`: the non-negative residue, as a `Nat`. -/
def wrap (c : Int) (n : Nat) : Nat := (c % (n : Int)).toNat

/-- Index of the geometric center cell, `np.ravel_multi_index((half,)*3, ...)`
with `half = GRID_SIZE // 2`. -/
def centerIdx : Nat := linearize (GRID_SIZE / 2) (GRID_SIZE / 2) (GRID_SIZE / 2)

/-- State at construction: all arrays zero. -/
def initialState : FieldState :=
  ⟨List.replicate N 0, List.replicate N 0, List.replicate N zeroDir⟩

/-- The six axis-aligned unit direction offsets of the injection handlers. -/
def offsets : List Dir := [(1,0,0), (-1,0,0), (0,1,0), (0,-1,0), (0,0,1), (0,0,-1)]

/-- Body of `inject_electric` / `inject_ui` after index resolution: zero the
`electric` and `magnetic` arrays, set `electric[idx] = 1`, and store the
drawn direction `d` at `idx`.  The draw `random.choice(offsets)` is an
external randomness source, so `d` is a parameter.  Note the `direction`
array is NOT cleared: only row `idx` is overwritten. -/
def inject (s : FieldState) (idx : Nat) (d : Dir) : FieldState :=
  ⟨(List.replicate N 0).set idx 1, List.replicate N 0, s.direction.set idx d⟩

/-- The `inject_ui` handler: converts the centered spin-box coordinates to grid
coordinates by adding `half = GRID_SIZE // 2`, then injects. -/
def injectUI (s : FieldState) (cx cy cz : Int) (d : Dir) : FieldState :=
  inject s
    (linearize (cx + (GRID_SIZE / 2 : Nat)).toNat (cy + (GRID_SIZE / 2 : Nat)).toNat
      (cz + (GRID_SIZE / 2 : Nat)).toNat) d

/-- Modelled from the spec: `injectStationary(t)` (spec §4.3) is absent from
`src/main.py`; per the spec it clears all state, then sets `electric[t] = 1`
with a zero direction. -/
def injectStationary (t : Nat) : FieldState :=
  ⟨(List.replicate N 0).set t 1, List.replicate N 0, List.replicate N zeroDir⟩

/-- Occupancy test of `step`: cell `i` is in `np.nonzero(electric | magnetic)`
iff the bitwise or of the two (non-negative) entries is non-zero. -/
def isOccupied (s : FieldState) (i : Nat) : Bool :=
  (s.electric.getD i 0 ||| s.magnetic.getD i 0) != 0

/-- The branch test `if self.electric[idx]:` inside the `step` loop. -/
def isE (s : FieldState) (i : Nat) : Bool :=
  s.electric.getD i 0 != 0

/-- Target index computed in the `step` loop: coordinates of `i` moved by the
direction stored at `i`, wrapped on each axis, re-linearized. -/
def targetIdx (s : FieldState) (i : Nat) : Nat :=
  let p := delinearize i
  let d := s.direction.getD i zeroDir
  linearize (wrap (↑p.1 + d.1) GRID_SIZE) (wrap (↑p.2.1 + d.2.1) GRID_SIZE)
    (wrap (↑p.2.2 + d.2.2) GRID_SIZE)

/-- One iteration of the `for idx in occupied:` loop of `step`, acting on the
accumulator `(newE, newB, newDir)`.  An electric occupant sets the magnetic
flag at the target, any other occupant sets the electric flag; the direction
is carried forward to the target in both cases. -/
def stepWrites (s : FieldState) (acc : List Nat × List Nat × List Dir) (i : Nat) :
    List Nat × List Nat × List Dir :=
  let t := targetIdx s i
  let d := s.direction.getD i zeroDir
  if isE s i then (acc.1, acc.2.1.set t 1, acc.2.2.set t d)
  else (acc.1.set t 1, acc.2.1, acc.2.2.set t d)

/-- The list `occupied = np.nonzero(self.electric | self.magnetic)[0]`: the ascending
list of occupied cell indices. -/
def occupiedList (s : FieldState) : List Nat :=
  (List.range N).filter (fun i => isOccupied s i)

/-- The `step` method: fold the per-occupant writes over the occupied indices
in ascending order, starting from all-zero next-state buffers, then replace
the state wholesale. -/
def step (s : FieldState) : FieldState :=
  let r := (occupiedList s).foldl (stepWrites s)
    (List.replicate N 0, List.replicate N 0, List.replicate N zeroDir)
  ⟨r.1, r.2.1, r.2.2⟩

/-- Total number of active cells: non-zero entries of `electric` plus
non-zero entries of `magnetic`. -/
def countActive (s : FieldState) : Nat :=
  s.electric.countP (fun v => v != 0) + s.magnetic.countP (fun v => v != 0)

/-- Mutual-exclusion invariant: no cell has both flags non-zero. -/
def MutEx (s : FieldState) : Prop :=
  ∀ i, i < N → ¬(s.electric.getD i 0 ≠ 0 ∧ s.magnetic.getD i 0 ≠ 0)

instance (s : FieldState) : Decidable (MutEx s) := by
  unfold MutEx
  infer_instance

/-- Application state: the field plus the two oscilloscope histories
`self.e_history` / `self.m_history`. -/
structure AppState where
  field : FieldState
  eHistory : List Nat
  mHistory : List Nat
deriving DecidableEq

/-- The sampling done by `update_plots`: append the center cell's current
`electric` and `magnetic` entries to the histories. -/
def sample (a : AppState) : AppState :=
  { a with
    eHistory := a.eHistory ++ [a.field.electric.getD centerIdx 0]
    mHistory := a.mHistory ++ [a.field.magnetic.getD centerIdx 0] }

/-- Application state right after construction: zero field, empty histories,
then the constructor's initial `update_plots()` call. -/
def initApp : AppState := sample ⟨initialState, [], []⟩

/-- A sampled operation: an injection (with its resolved index and drawn
direction) or a step; each handler ends by calling `update_plots()`. -/
inductive Op where
  | opInject (idx : Nat) (d : Dir)
  | opStep
deriving DecidableEq

/-- Run one operation: mutate the field, then sample. -/
def applyOp (a : AppState) : Op → AppState
  | .opInject i d => sample { a with field := inject a.field i d }
  | .opStep => sample { a with field := step a.field }

/-- Run a list of operations in order. -/
def runOps (a : AppState) (l : List Op) : AppState := l.foldl applyOp a

/-- Modelled from the spec: `reset()` (spec §6, §8) is absent from
`src/main.py`; per the spec it zeroes the whole `FieldState` and empties both
history sequences. -/
def reset (_a : AppState) : AppState :=
  ⟨⟨List.replicate N 0, List.replicate N 0, List.replicate N zeroDir⟩, [], []⟩

/-- A state whose only occupant is a single electric excitation at `i` with
direction `d` (the shape produced by injection into a clean state). -/
def mkE (i : Nat) (d : Dir) : FieldState :=
  ⟨(List.replicate N 0).set i 1, List.replicate N 0, (List.replicate N zeroDir).set i d⟩

/-- A state whose only occupant is a single magnetic excitation at `i` with
direction `d`. -/
def mkB (i : Nat) (d : Dir) : FieldState :=
  ⟨List.replicate N 0, (List.replicate N 0).set i 1, (List.replicate N zeroDir).set i d⟩

/-! ### Generic list helper lemmas -/

theorem getD_set_self {α : Type} (l : List α) (i : Nat) (v d : α) (h : i < l.length) :
    (l.set i v).getD i d = v := by
  rw [List.getD_eq_getElem _ _ (by simpa using h)]
  simp

theorem getD_set_ne {α : Type} (l : List α) (i j : Nat) (v d : α) (h : j ≠ i) :
    (l.set i v).getD j d = l.getD j d := by
  by_cases hj : j < l.length
  · rw [List.getD_eq_getElem _ _ (by simpa using hj), List.getD_eq_getElem _ _ hj]
    exact List.getElem_set_ne (fun hh => h hh.symm) _
  · rw [List.getD_eq_default _ _ (by simpa using Nat.le_of_not_lt hj),
      List.getD_eq_default _ _ (Nat.le_of_not_lt hj)]

theorem getD_replicate {α : Type} (n i : Nat) (z d : α) :
    (List.replicate n z).getD i d = if i < n then z else d := by
  split
  · rw [List.getD_eq_getElem _ _ (by simpa using ‹i < n›)]
    simp
  · exact List.getD_eq_default _ _ (by simpa using Nat.le_of_not_lt ‹_›)

theorem filter_range_single (p : Nat → Bool) (n i : Nat) (hi : i < n)
    (hp : ∀ j, j < n → (p j = true ↔ j = i)) :
    (List.range n).filter p = [i] := by
  induction n with
  | zero => exact absurd hi (Nat.not_lt_zero i)
  | succ n ih =>
    rw [List.range_succ, List.filter_append]
    by_cases h : i = n
    · have h1 : (List.range n).filter p = [] := by
        rw [List.filter_eq_nil_iff]
        intro a ha hpa
        have halt : a < n := List.mem_range.mp ha
        have := (hp a (Nat.lt_succ_of_lt halt)).mp hpa
        omega
      have h2 : p n = true := (hp n (Nat.lt_succ_self n)).mpr h.symm
      simp [h1, h2, h]
    · have hi' : i < n := by omega
      have h2 : p n = false := by
        cases hc : p n
        · rfl
        · have := (hp n (Nat.lt_succ_self n)).mp hc
          omega
      rw [ih hi' (fun j hj => hp j (Nat.lt_succ_of_lt hj))]
      simp [h2]

/-! ### Lengths through the step fold -/

theorem foldl_writes_length (s : FieldState) (l : List Nat) :
    ∀ (e b : List Nat) (d : List Dir),
      (l.foldl (stepWrites s) (e, b, d)).1.length = e.length ∧
      (l.foldl (stepWrites s) (e, b, d)).2.1.length = b.length ∧
      (l.foldl (stepWrites s) (e, b, d)).2.2.length = d.length := by
  induction l with
  | nil => intro e b d; simp
  | cons i l ih =>
    intro e b d
    rw [List.foldl_cons]
    by_cases h : isE s i
    · simpa [stepWrites, h] using
        ih e (b.set (targetIdx s i) 1) (d.set (targetIdx s i) (s.direction.getD i zeroDir))
    · simpa [stepWrites, h] using
        ih (e.set (targetIdx s i) 1) b (d.set (targetIdx s i) (s.direction.getD i zeroDir))

theorem step_lengths (s : FieldState) :
    (step s).electric.length = N ∧ (step s).magnetic.length = N ∧
    (step s).direction.length = N := by
  have := foldl_writes_length s (occupiedList s)
    (List.replicate N 0) (List.replicate N 0) (List.replicate N zeroDir)
  simpa [step] using this

/-! ### Pointwise characterization of the step fold -/

theorem foldl_electric_getD (s : FieldState) (l : List Nat) :
    ∀ (e b : List Nat) (d : List Dir) (t : Nat), t < e.length →
      (l.foldl (stepWrites s) (e, b, d)).1.getD t 0 =
        if l.any (fun i => !(isE s i) && (targetIdx s i == t)) then 1 else e.getD t 0 := by
  induction l with
  | nil => intro e b d t ht; simp
  | cons i l ih =>
    intro e b d t ht
    rw [List.foldl_cons, List.any_cons]
    by_cases h : isE s i
    · rw [show stepWrites s (e, b, d) i =
          (e, b.set (targetIdx s i) 1, d.set (targetIdx s i) (s.direction.getD i zeroDir))
        from by simp [stepWrites, h]]
      rw [ih e _ _ t ht]
      simp [h]
    · rw [show stepWrites s (e, b, d) i =
          (e.set (targetIdx s i) 1, b, d.set (targetIdx s i) (s.direction.getD i zeroDir))
        from by simp [stepWrites, h]]
      rw [ih _ _ _ t (by simpa using ht)]
      by_cases hl : l.any (fun i => !(isE s i) && (targetIdx s i == t)) = true
      · simp [hl]
      · by_cases he : targetIdx s i = t
        · subst he
          rw [getD_set_self _ _ _ _ ht]
          simp [h, hl]
        · rw [getD_set_ne _ _ _ _ _ (fun hh => he hh.symm)]
          simp [h, hl, he]

theorem foldl_magnetic_getD (s : FieldState) (l : List Nat) :
    ∀ (e b : List Nat) (d : List Dir) (t : Nat), t < b.length →
      (l.foldl (stepWrites s) (e, b, d)).2.1.getD t 0 =
        if l.any (fun i => (isE s i) && (targetIdx s i == t)) then 1 else b.getD t 0 := by
  induction l with
  | nil => intro e b d t ht; simp
  | cons i l ih =>
    intro e b d t ht
    rw [List.foldl_cons, List.any_cons]
    by_cases h : isE s i
    · rw [show stepWrites s (e, b, d) i =
          (e, b.set (targetIdx s i) 1, d.set (targetIdx s i) (s.direction.getD i zeroDir))
        from by simp [stepWrites, h]]
      rw [ih _ _ _ t (by simpa using ht)]
      by_cases hl : l.any (fun i => (isE s i) && (targetIdx s i == t)) = true
      · simp [hl]
      · by_cases he : targetIdx s i = t
        · subst he
          rw [getD_set_self _ _ _ _ ht]
          simp [h, hl]
        · rw [getD_set_ne _ _ _ _ _ (fun hh => he hh.symm)]
          simp [h, hl, he]
    · rw [show stepWrites s (e, b, d) i =
          (e.set (targetIdx s i) 1, b, d.set (targetIdx s i) (s.direction.getD i zeroDir))
        from by simp [stepWrites, h]]
      rw [ih _ _ _ t ht]
      simp [h]

/-- Last-writer accumulator for the direction recorded at target `t` while
folding over occupant list `l`. -/
def lastDirAux (s : FieldState) (t : Nat) (l : List Nat) (a : Option Dir) : Option Dir :=
  l.foldl (fun acc i => if targetIdx s i = t then some (s.direction.getD i zeroDir) else acc) a

theorem lastDirAux_some (s : FieldState) (t : Nat) (l : List Nat) :
    ∀ v : Dir, lastDirAux s t l (some v) = some ((lastDirAux s t l none).getD v) := by
  induction l with
  | nil => intro v; simp [lastDirAux]
  | cons i l ih =>
    intro v
    by_cases h : targetIdx s i = t
    · show lastDirAux s t l (if targetIdx s i = t then _ else _) =
        some ((lastDirAux s t l (if targetIdx s i = t then _ else _)).getD v)
      rw [if_pos h, if_pos h]
      rw [ih (s.direction.getD i zeroDir)]
      simp
    · show lastDirAux s t l (if targetIdx s i = t then _ else _) =
        some ((lastDirAux s t l (if targetIdx s i = t then _ else _)).getD v)
      rw [if_neg h, if_neg h]
      exact ih v

theorem foldl_direction_getD (s : FieldState) (l : List Nat) :
    ∀ (e b : List Nat) (d : List Dir) (t : Nat), t < d.length →
      (l.foldl (stepWrites s) (e, b, d)).2.2.getD t zeroDir =
        (lastDirAux s t l none).getD (d.getD t zeroDir) := by
  induction l with
  | nil => intro e b d t ht; simp [lastDirAux]
  | cons i l ih =>
    intro e b d t ht
    rw [List.foldl_cons]
    have hstep : (stepWrites s (e, b, d) i).2.2 =
        d.set (targetIdx s i) (s.direction.getD i zeroDir) := by
      by_cases h : isE s i <;> simp [stepWrites, h]
    have hfst : ∃ e' b', stepWrites s (e, b, d) i =
        (e', b', d.set (targetIdx s i) (s.direction.getD i zeroDir)) := by
      by_cases h : isE s i
      · exact ⟨e, b.set (targetIdx s i) 1, by simp [stepWrites, h]⟩
      · exact ⟨e.set (targetIdx s i) 1, b, by simp [stepWrites, h]⟩
    obtain ⟨e', b', hsw⟩ := hfst
    rw [hsw, ih e' b' _ t (by simpa using ht)]
    have hl : lastDirAux s t (i :: l) none =
        lastDirAux s t l (if targetIdx s i = t then some (s.direction.getD i zeroDir) else none) := by
      rfl
    rw [hl]
    by_cases h : targetIdx s i = t
    · rw [if_pos h, lastDirAux_some]
      subst h
      rw [getD_set_self _ _ _ _ ht]
      simp
    · rw [if_neg h, getD_set_ne _ _ _ _ _ (fun hh => h hh.symm)]

/-! ### Occupancy, topology bounds, and step-level characterization -/

theorem lor_eq_zero_iff (a b : Nat) : a ||| b = 0 ↔ a = 0 ∧ b = 0 := by
  constructor
  · intro h
    have hb : ∀ i, (a.testBit i || b.testBit i) = false := by
      intro i
      have := congrArg (fun x => Nat.testBit x i) h
      simpa using this
    constructor
    · apply Nat.eq_of_testBit_eq
      intro i
      have := hb i
      simp only [Bool.or_eq_false_iff] at this
      simp [this.1]
    · apply Nat.eq_of_testBit_eq
      intro i
      have := hb i
      simp only [Bool.or_eq_false_iff] at this
      simp [this.2]
  · rintro ⟨rfl, rfl⟩
    rfl

theorem isOccupied_iff (s : FieldState) (i : Nat) :
    isOccupied s i = true ↔ (s.electric.getD i 0 ≠ 0 ∨ s.magnetic.getD i 0 ≠ 0) := by
  simp only [isOccupied, bne_iff_ne, ne_eq, lor_eq_zero_iff]
  tauto

theorem mem_occupiedList (s : FieldState) (i : Nat) :
    i ∈ occupiedList s ↔ i < N ∧ isOccupied s i = true := by
  simp [occupiedList, List.mem_filter, List.mem_range]

theorem wrap_lt (c : Int) (n : Nat) (hn : 0 < n) : wrap c n < n := by
  have hne : (n : Int) ≠ 0 := by
    simp
    omega
  have h1 : 0 ≤ c % (n : Int) := Int.emod_nonneg c hne
  have h2 : c % (n : Int) < (n : Int) := Int.emod_lt_of_pos c (by exact_mod_cast hn)
  have := (Int.toNat_lt h1).mpr h2
  exact this

theorem linearize_lt (x y z : Nat) (_hx : x < GRID_SIZE) (hy : y < GRID_SIZE)
    (hz : z < GRID_SIZE) : linearize x y z < N := by
  have hN : N = 343 := by decide
  have hG : GRID_SIZE = 7 := rfl
  rw [hN]
  simp only [linearize, hG] at *
  omega

theorem targetIdx_lt (s : FieldState) (i : Nat) : targetIdx s i < N := by
  unfold targetIdx
  exact linearize_lt _ _ _ (wrap_lt _ _ (by decide)) (wrap_lt _ _ (by decide))
    (wrap_lt _ _ (by decide))

theorem delinearize_linearize (x y z : Nat) (_hx : x < GRID_SIZE) (hy : y < GRID_SIZE)
    (hz : z < GRID_SIZE) : delinearize (linearize x y z) = (x, y, z) := by
  have hG : GRID_SIZE = 7 := rfl
  simp only [delinearize, linearize, hG, Prod.mk.injEq] at *
  refine ⟨?_, ?_, ?_⟩ <;> omega

theorem linearize_delinearize (i : Nat) (hi : i < N) :
    linearize (delinearize i).1 (delinearize i).2.1 (delinearize i).2.2 = i ∧
    (delinearize i).1 < GRID_SIZE ∧ (delinearize i).2.1 < GRID_SIZE ∧
    (delinearize i).2.2 < GRID_SIZE := by
  have hN : N = 343 := by decide
  have hG : GRID_SIZE = 7 := rfl
  rw [hN] at hi
  simp only [delinearize, linearize, hG]
  refine ⟨?_, ?_, ?_, ?_⟩ <;> omega

theorem step_electric_eq (s : FieldState) :
    (step s).electric = ((occupiedList s).foldl (stepWrites s)
      (List.replicate N 0, List.replicate N 0, List.replicate N zeroDir)).1 := rfl

theorem step_magnetic_eq (s : FieldState) :
    (step s).magnetic = ((occupiedList s).foldl (stepWrites s)
      (List.replicate N 0, List.replicate N 0, List.replicate N zeroDir)).2.1 := rfl

theorem step_direction_eq (s : FieldState) :
    (step s).direction = ((occupiedList s).foldl (stepWrites s)
      (List.replicate N 0, List.replicate N 0, List.replicate N zeroDir)).2.2 := rfl

theorem step_electric_getD (s : FieldState) (t : Nat) (ht : t < N) :
    (step s).electric.getD t 0 =
      if (occupiedList s).any (fun i => !(isE s i) && (targetIdx s i == t)) then 1 else 0 := by
  rw [step_electric_eq,
    foldl_electric_getD s (occupiedList s) _ _ _ t (by simpa using ht),
    getD_replicate]
  simp [ht]

theorem step_magnetic_getD (s : FieldState) (t : Nat) (ht : t < N) :
    (step s).magnetic.getD t 0 =
      if (occupiedList s).any (fun i => (isE s i) && (targetIdx s i == t)) then 1 else 0 := by
  rw [step_magnetic_eq,
    foldl_magnetic_getD s (occupiedList s) _ _ _ t (by simpa using ht),
    getD_replicate]
  simp [ht]

theorem step_direction_getD (s : FieldState) (t : Nat) (ht : t < N) :
    (step s).direction.getD t zeroDir =
      (lastDirAux s t (occupiedList s) none).getD zeroDir := by
  rw [step_direction_eq,
    foldl_direction_getD s (occupiedList s) _ _ _ t (by simpa using ht),
    getD_replicate]
  simp [ht]

/-! ### Single-occupant states and the step on them -/

theorem occupiedList_single_E (s : FieldState) (i : Nat) (hi : i < N)
    (he : s.electric = (List.replicate N 0).set i 1)
    (hm : s.magnetic = List.replicate N 0) :
    occupiedList s = [i] := by
  apply filter_range_single _ N i hi
  intro j hj
  rw [isOccupied_iff]
  constructor
  · rintro (h1 | h2)
    · by_contra hne
      rw [he, getD_set_ne _ _ _ _ _ hne, getD_replicate] at h1
      simp [hj] at h1
    · rw [hm, getD_replicate] at h2
      simp [hj] at h2
  · rintro rfl
    left
    rw [he, getD_set_self _ _ _ _ (by simpa using hi)]
    exact one_ne_zero

theorem occupiedList_single_B (s : FieldState) (i : Nat) (hi : i < N)
    (he : s.electric = List.replicate N 0)
    (hm : s.magnetic = (List.replicate N 0).set i 1) :
    occupiedList s = [i] := by
  apply filter_range_single _ N i hi
  intro j hj
  rw [isOccupied_iff]
  constructor
  · rintro (h1 | h2)
    · rw [he, getD_replicate] at h1
      simp [hj] at h1
    · by_contra hne
      rw [hm, getD_set_ne _ _ _ _ _ hne, getD_replicate] at h2
      simp [hj] at h2
  · rintro rfl
    right
    rw [hm, getD_set_self _ _ _ _ (by simpa using hi)]
    exact one_ne_zero

theorem step_single_E (s : FieldState) (i : Nat) (hi : i < N)
    (he : s.electric = (List.replicate N 0).set i 1)
    (hm : s.magnetic = List.replicate N 0) :
    step s = ⟨List.replicate N 0, (List.replicate N 0).set (targetIdx s i) 1,
      (List.replicate N zeroDir).set (targetIdx s i) (s.direction.getD i zeroDir)⟩ := by
  have hocc := occupiedList_single_E s i hi he hm
  have hiE : isE s i = true := by
    rw [isE, he, getD_set_self _ _ _ _ (by simpa using hi)]
    rfl
  rw [step, hocc]
  simp [stepWrites, hiE]

theorem step_single_B (s : FieldState) (i : Nat) (hi : i < N)
    (he : s.electric = List.replicate N 0)
    (hm : s.magnetic = (List.replicate N 0).set i 1) :
    step s = ⟨(List.replicate N 0).set (targetIdx s i) 1, List.replicate N 0,
      (List.replicate N zeroDir).set (targetIdx s i) (s.direction.getD i zeroDir)⟩ := by
  have hocc := occupiedList_single_B s i hi he hm
  have hiE : isE s i = false := by
    rw [isE, he, getD_replicate]
    simp
  rw [step, hocc]
  simp [stepWrites, hiE]

theorem countP_replicate_zero (n : Nat) :
    (List.replicate n (0 : Nat)).countP (fun v => v != 0) = 0 := by
  apply List.countP_eq_zero.mpr
  intro a ha
  simp [List.eq_of_mem_replicate ha]

theorem countP_set_one (n i : Nat) (hi : i < n) :
    ((List.replicate n (0 : Nat)).set i 1).countP (fun v => v != 0) = 1 := by
  induction n generalizing i with
  | zero => exact absurd hi (Nat.not_lt_zero i)
  | succ n ih =>
    rw [List.replicate_succ]
    cases i with
    | zero =>
      simp [List.countP_cons, countP_replicate_zero]
    | succ k =>
      simp [List.countP_cons, ih k (by omega)]

/-- A state holding exactly one excitation as produced by injection and
preserved by the step: a single `1` in one of the two flag arrays, the other
array all zero. -/
def SingleExc (s : FieldState) : Prop :=
  ∃ i, i < N ∧
    ((s.electric = (List.replicate N 0).set i 1 ∧ s.magnetic = List.replicate N 0) ∨
     (s.electric = List.replicate N 0 ∧ s.magnetic = (List.replicate N 0).set i 1))

theorem SingleExc_step {s : FieldState} (h : SingleExc s) : SingleExc (step s) := by
  obtain ⟨i, hi, hcase⟩ := h
  rcases hcase with ⟨he, hm⟩ | ⟨he, hm⟩
  · rw [step_single_E s i hi he hm]
    exact ⟨targetIdx s i, targetIdx_lt s i, Or.inr ⟨rfl, rfl⟩⟩
  · rw [step_single_B s i hi he hm]
    exact ⟨targetIdx s i, targetIdx_lt s i, Or.inl ⟨rfl, rfl⟩⟩

theorem countActive_of_SingleExc {s : FieldState} (h : SingleExc s) :
    countActive s = 1 := by
  obtain ⟨i, hi, hcase⟩ := h
  rcases hcase with ⟨he, hm⟩ | ⟨he, hm⟩ <;>
    rw [countActive, he, hm] <;>
    simp [countP_set_one N i hi, countP_replicate_zero]

theorem SingleExc_inject (s : FieldState) (t : Nat) (d : Dir) (ht : t < N) :
    SingleExc (inject s t d) :=
  ⟨t, ht, Or.inl ⟨rfl, rfl⟩⟩

theorem wrap_coe_lt (m n : Nat) (h : m < n) : wrap (m : Int) n = m := by
  rw [wrap, Int.emod_eq_of_lt (by exact_mod_cast Nat.zero_le m) (by exact_mod_cast h)]
  simp

/-! ### Claim theorems -/

/-- C4: starting from the state produced by an injection, the total number of
active cells (non-zero `electric` entries plus non-zero `magnetic` entries)
is exactly 1 after any number of Directional Propagation steps.  With a
single excitation no two occupied cells ever share a target, so the claim's
no-collision proviso is automatically satisfied. -/
theorem C4_single_excitation_conservation (s : FieldState) (t : Nat) (d : Dir) (k : Nat)
    (ht : t < N) : countActive (step^[k] (inject s t d)) = 1 := by
  have h : SingleExc (step^[k] (inject s t d)) := by
    induction k with
    | zero => simpa using SingleExc_inject s t d ht
    | succ n ih =>
      rw [Function.iterate_succ_apply']
      exact SingleExc_step ih
  exact countActive_of_SingleExc h

theorem C4_witness :
    0 < N ∧ countActive (step^[2] (inject initialState 0 (1, 0, 0))) = 1 :=
  ⟨by decide, C4_single_excitation_conservation initialState 0 (1, 0, 0) 2 (by decide)⟩

/-- C5: `delinearize` is a left inverse of `linearize` on `[0,L)³`, and
`linearize` a left inverse of `delinearize` on `[0,L³)`, with both maps
landing in range: the two functions form a bijection `[0,L)³ ↔ [0,L³)`. -/
theorem C5_topology_bijection :
    (∀ x, x < GRID_SIZE → ∀ y, y < GRID_SIZE → ∀ z, z < GRID_SIZE →
      delinearize (linearize x y z) = (x, y, z) ∧ linearize x y z < N) ∧
    (∀ i, i < N →
      linearize (delinearize i).1 (delinearize i).2.1 (delinearize i).2.2 = i ∧
      (delinearize i).1 < GRID_SIZE ∧ (delinearize i).2.1 < GRID_SIZE ∧
      (delinearize i).2.2 < GRID_SIZE) := by
  constructor
  · intro x hx y hy z hz
    exact ⟨delinearize_linearize x y z hx hy hz, linearize_lt x y z hx hy hz⟩
  · intro i hi
    exact linearize_delinearize i hi

theorem C5_witness :
    1 < GRID_SIZE ∧ 2 < GRID_SIZE ∧ 3 < GRID_SIZE ∧
    delinearize (linearize 1 2 3) = (1, 2, 3) :=
  ⟨by decide, by decide, by decide,
    (C5_topology_bijection.1 1 (by decide) 2 (by decide) 3 (by decide)).1⟩

/-- C3 (amended): `injectDirectional(t)` zeroes both flag arrays, sets
`electric[t] = 1`, and stores the drawn offset (one of the six axis-aligned
unit vectors) at `direction[t]`; the direction rows of all other cells are
left unchanged from the prior state (they are NOT cleared to zero). -/
theorem C3_injectDirectional_amended (s : FieldState) (t : Nat) (d : Dir)
    (hlen : s.direction.length = N) (ht : t < N) (hd : d ∈ offsets) :
    (inject s t d).electric.getD t 0 = 1 ∧
    (∀ j, j ≠ t → (inject s t d).electric.getD j 0 = 0) ∧
    (∀ j, (inject s t d).magnetic.getD j 0 = 0) ∧
    (inject s t d).direction.getD t zeroDir = d ∧ d ∈ offsets ∧
    (∀ j, j ≠ t → (inject s t d).direction.getD j zeroDir = s.direction.getD j zeroDir) := by
  refine ⟨?_, ?_, ?_, ?_, hd, ?_⟩
  · exact getD_set_self _ _ _ _ (by simpa using ht)
  · intro j hj
    rw [show (inject s t d).electric = (List.replicate N 0).set t 1 from rfl,
      getD_set_ne _ _ _ _ _ hj, getD_replicate]
    split <;> rfl
  · intro j
    rw [show (inject s t d).magnetic = List.replicate N 0 from rfl, getD_replicate]
    split <;> rfl
  · exact getD_set_self _ _ _ _ (by rw [hlen]; exact ht)
  · intro j hj
    exact getD_set_ne _ _ _ _ _ hj

theorem C3_witness :
    initialState.direction.length = N ∧ 171 < N ∧ ((1, 0, 0) : Dir) ∈ offsets ∧
    (inject initialState 171 (1, 0, 0)).electric.getD 171 0 = 1 :=
  ⟨by simp [initialState], by decide, by decide,
    (C3_injectDirectional_amended initialState 171 (1, 0, 0) (by simp [initialState])
      (by decide) (by decide)).1⟩

/-- C3 counterexample: the claim that injection clears the entire prior state
is false — a stale direction stored at cell 0 survives an injection at cell
171, so the direction of a cell other than the target need not be zero. -/
theorem C3_counterexample :
    (inject ⟨List.replicate N 0, List.replicate N 0,
        (List.replicate N zeroDir).set 0 (1, 0, 0)⟩ 171 (0, 0, 1)).direction.getD 0 zeroDir
      = (1, 0, 0) ∧ ((1, 0, 0) : Dir) ≠ zeroDir := by
  refine ⟨?_, by decide⟩
  rw [show (inject ⟨List.replicate N 0, List.replicate N 0,
      (List.replicate N zeroDir).set 0 (1, 0, 0)⟩ 171 (0, 0, 1)).direction =
      ((List.replicate N zeroDir).set 0 (1, 0, 0)).set 171 (0, 0, 1) from rfl]
  rw [getD_set_ne _ _ _ _ _ (by decide),
    getD_set_self _ _ _ _ (by simp only [List.length_replicate]; decide)]

/-- C7: a lone excitation on the `x = L-1` boundary face moving in `+x`
wraps to `x = 0` in one step, and the coordinate wrap is Python's
non-negative residue modulo the axis length for every integer input,
negative inputs included. -/
theorem C7_wraparound :
    (∀ y z : Fin GRID_SIZE,
      step (mkE (linearize (GRID_SIZE - 1) y z) (1, 0, 0)) = mkB (linearize 0 y z) (1, 0, 0)) ∧
    (∀ c : Int, ((wrap c GRID_SIZE : Nat) : Int) = c % (GRID_SIZE : Int) ∧
      0 ≤ c % (GRID_SIZE : Int) ∧ wrap c GRID_SIZE < GRID_SIZE) := by
  constructor
  · intro y z
    have hi : linearize (GRID_SIZE - 1) y z < N :=
      linearize_lt _ _ _ (by decide) y.isLt z.isLt
    have hstep := step_single_E (mkE (linearize (GRID_SIZE - 1) y z) (1, 0, 0))
      (linearize (GRID_SIZE - 1) y z) hi rfl rfl
    have hdir : (mkE (linearize (GRID_SIZE - 1) y z) (1, 0, 0)).direction.getD
        (linearize (GRID_SIZE - 1) y z) zeroDir = (1, 0, 0) :=
      getD_set_self _ _ _ _ (by simpa using hi)
    have hdelin : delinearize (linearize (GRID_SIZE - 1) y z) =
        (GRID_SIZE - 1, (y : Nat), (z : Nat)) :=
      delinearize_linearize _ _ _ (by decide) y.isLt z.isLt
    have hw1 : wrap (((GRID_SIZE - 1 : Nat) : Int) + 1) GRID_SIZE = 0 := by decide
    have htgt : targetIdx (mkE (linearize (GRID_SIZE - 1) y z) (1, 0, 0))
        (linearize (GRID_SIZE - 1) y z) = linearize 0 y z := by
      simp only [targetIdx, hdelin, hdir, add_zero, hw1,
        wrap_coe_lt _ _ y.isLt, wrap_coe_lt _ _ z.isLt]
    rw [hstep, htgt, hdir]
    rfl
  · intro c
    have hne : ((GRID_SIZE : Nat) : Int) ≠ 0 := by decide
    refine ⟨Int.toNat_of_nonneg (Int.emod_nonneg c hne), Int.emod_nonneg c hne,
      wrap_lt c GRID_SIZE (by decide)⟩

/-- C6: with `L = 7`, injecting at centered coordinate `(0,0,0)` with the
drawn direction fixed to `(1,0,0)` puts the electric bit at the center cell;
one step later the center is electric-clear and the magnetic bit sits exactly
one unit in `+x` from center; after a second step the electric bit sits
exactly two units in `+x` from center and the magnetic array is all zero. -/
theorem C6_concrete_scenario :
    (injectUI initialState 0 0 0 (1, 0, 0)).electric.getD centerIdx 0 = 1 ∧
    (step (injectUI initialState 0 0 0 (1, 0, 0))).electric.getD centerIdx 0 = 0 ∧
    (∀ i : Fin N,
      ((step (injectUI initialState 0 0 0 (1, 0, 0))).magnetic.getD i 0 ≠ 0 ↔
        (i : Nat) = linearize 4 3 3)) ∧
    (∀ i : Fin N,
      ((step (step (injectUI initialState 0 0 0 (1, 0, 0)))).electric.getD i 0 ≠ 0 ↔
        (i : Nat) = linearize 5 3 3)) ∧
    (∀ i : Fin N, (step (step (injectUI initialState 0 0 0 (1, 0, 0)))).magnetic.getD i 0 = 0) := by
  have h0 : injectUI initialState 0 0 0 (1, 0, 0) = mkE 171 (1, 0, 0) := by decide
  have hs1 : step (mkE 171 (1, 0, 0)) = mkB 220 (1, 0, 0) := by
    have hstep := step_single_E (mkE 171 (1, 0, 0)) 171 (by decide) rfl rfl
    have ht : targetIdx (mkE 171 (1, 0, 0)) 171 = 220 := by decide
    have hd : (mkE 171 (1, 0, 0)).direction.getD 171 zeroDir = (1, 0, 0) := by decide
    rw [hstep, ht, hd]
    rfl
  have hs2 : step (mkB 220 (1, 0, 0)) = mkE 269 (1, 0, 0) := by
    have hstep := step_single_B (mkB 220 (1, 0, 0)) 220 (by decide) rfl rfl
    have ht : targetIdx (mkB 220 (1, 0, 0)) 220 = 269 := by decide
    have hd : (mkB 220 (1, 0, 0)).direction.getD 220 zeroDir = (1, 0, 0) := by decide
    rw [hstep, ht, hd]
    rfl
  rw [h0, hs1, hs2]
  refine ⟨by decide, by decide, ?_, ?_, ?_⟩ <;> exact (by decide)

/-- A mixed-type collision state: an electric occupant at cell 0 = (0,0,0)
moving `+x` and a magnetic occupant at cell 98 = (2,0,0) moving `-x`; both
compute target cell 49 = (1,0,0). -/
def collideState : FieldState :=
  ⟨(List.replicate N 0).set 0 1,
   (List.replicate N 0).set 98 1,
   ((List.replicate N zeroDir).set 0 (1, 0, 0)).set 98 (-1, 0, 0)⟩

/-- C1 counterexample: `collideState` satisfies mutual exclusion, yet after
one `step` the shared target cell 49 has BOTH flags set — the invariant is
not preserved by `step` from an arbitrary state satisfying it. -/
theorem C1_counterexample :
    MutEx collideState ∧
    (step collideState).electric.getD 49 0 ≠ 0 ∧
    (step collideState).magnetic.getD 49 0 ≠ 0 := by
  refine ⟨by decide, by decide, by decide⟩

theorem lastDirAux_no_hit (s : FieldState) (t : Nat) (l : List Nat) :
    ∀ a : Option Dir, (∀ i ∈ l, targetIdx s i ≠ t) → lastDirAux s t l a = a := by
  induction l with
  | nil => intro a _; rfl
  | cons i l ih =>
    intro a h
    show lastDirAux s t l (if targetIdx s i = t then _ else _) = a
    rw [if_neg (h i (List.mem_cons_self i l))]
    exact ih a (fun j hj => h j (List.mem_cons_of_mem i hj))

theorem lastDirAux_of_max (s : FieldState) (t : Nat) (l : List Nat) (j : Nat)
    (hsort : l.Pairwise (· < ·)) (hj : j ∈ l) (hjt : targetIdx s j = t)
    (hmax : ∀ i ∈ l, targetIdx s i = t → i ≤ j) :
    lastDirAux s t l none = some (s.direction.getD j zeroDir) := by
  induction l with
  | nil => cases hj
  | cons a l ih =>
    have hpw := List.pairwise_cons.mp hsort
    rcases List.mem_cons.mp hj with rfl | hjl
    · show lastDirAux s t l (if targetIdx s j = t then _ else _) = _
      rw [if_pos hjt]
      apply lastDirAux_no_hit
      intro i hi hit
      have h1 : j < i := hpw.1 i hi
      have h2 : i ≤ j := hmax i (List.mem_cons_of_mem _ hi) hit
      omega
    · show lastDirAux s t l (if targetIdx s a = t then _ else _) = _
      have ihl := ih hpw.2 hjl (fun i hi hit => hmax i (List.mem_cons_of_mem _ hi) hit)
      by_cases ha : targetIdx s a = t
      · rw [if_pos ha, lastDirAux_some, ihl]
        simp
      · rw [if_neg ha]
        exact ihl

theorem occupiedList_pairwise (s : FieldState) :
    (occupiedList s).Pairwise (· < ·) :=
  (List.pairwise_lt_range N).sublist (List.filter_sublist _)

/-- C1 (amended): mutual exclusion is established by both injection
operations from any prior state, and is preserved by `step` from any state
satisfying it in which no two distinct occupied cells share a target; with a
mixed-type collision `step` can set both flags at the shared target. -/
theorem C1_mutual_exclusion_amended :
    (∀ (s : FieldState) (t : Nat) (d : Dir), MutEx (inject s t d)) ∧
    (∀ t : Nat, MutEx (injectStationary t)) ∧
    (∀ s : FieldState, MutEx s →
      (∀ i ∈ occupiedList s, ∀ j ∈ occupiedList s, targetIdx s i = targetIdx s j → i = j) →
      MutEx (step s)) := by
  refine ⟨?_, ?_, ?_⟩
  · intro s t d i _ h
    apply h.2
    rw [show (inject s t d).magnetic = List.replicate N 0 from rfl, getD_replicate]
    split <;> rfl
  · intro t i _ h
    apply h.2
    rw [show (injectStationary t).magnetic = List.replicate N 0 from rfl, getD_replicate]
    split <;> rfl
  · intro s _hME hinj i hi hcon
    obtain ⟨h1, h2⟩ := hcon
    rw [step_electric_getD s i hi] at h1
    rw [step_magnetic_getD s i hi] at h2
    have h1' : (occupiedList s).any (fun j => !(isE s j) && (targetIdx s j == i)) = true := by
      by_contra hc
      rw [if_neg hc] at h1
      exact h1 rfl
    have h2' : (occupiedList s).any (fun j => (isE s j) && (targetIdx s j == i)) = true := by
      by_contra hc
      rw [if_neg hc] at h2
      exact h2 rfl
    obtain ⟨a, ha, hpa⟩ := List.any_eq_true.mp h1'
    obtain ⟨b, hb, hpb⟩ := List.any_eq_true.mp h2'
    simp only [Bool.and_eq_true, Bool.not_eq_true', beq_iff_eq] at hpa hpb
    have hab : a = b := hinj a ha b hb (by rw [hpa.2, hpb.2])
    rw [hab, hpb.1] at hpa
    exact absurd hpa.1 (by simp)

theorem C1_witness :
    MutEx (mkE 0 (1, 0, 0)) ∧ MutEx (step (mkE 0 (1, 0, 0))) := by
  have hME : MutEx (mkE 0 (1, 0, 0)) := by decide
  have hinj : ∀ i ∈ occupiedList (mkE 0 (1, 0, 0)), ∀ j ∈ occupiedList (mkE 0 (1, 0, 0)),
      targetIdx (mkE 0 (1, 0, 0)) i = targetIdx (mkE 0 (1, 0, 0)) j → i = j := by decide
  exact ⟨hME, C1_mutual_exclusion_amended.2.2 _ hME hinj⟩

/-- C2 counterexample: in `collideState` the occupants 0 (electric) and 98
(magnetic) are processed in ascending order and both target cell 49.  The
last-processed occupant 98 contributes the electric flag, yet after the step
the magnetic flag at 49 is also 1 — the field-type recorded at the target is
not exactly the last occupant's contribution. -/
theorem C2_counterexample :
    occupiedList collideState = [0, 98] ∧
    isE collideState 0 = true ∧ isE collideState 98 = false ∧
    targetIdx collideState 0 = 49 ∧ targetIdx collideState 98 = 49 ∧
    (step collideState).electric.getD 49 0 = 1 ∧
    (step collideState).magnetic.getD 49 0 = 1 := by decide

/-- C2 (amended): when occupied cells collide on a target `t`, the direction
recorded at `t` is exactly the one contributed by the occupant with the
largest source index, but the field-type flags accumulate: the electric flag
at `t` is set iff some magnetic occupant targets `t`, and the magnetic flag
iff some electric occupant targets `t` (a later writer never clears the flag
contributed by an earlier occupant of the other type). -/
theorem C2_collision_amended (s : FieldState) (t j : Nat)
    (hj : j ∈ occupiedList s) (hjt : targetIdx s j = t)
    (hmax : ∀ i ∈ occupiedList s, targetIdx s i = t → i ≤ j) :
    (step s).direction.getD t zeroDir = s.direction.getD j zeroDir ∧
    ((step s).electric.getD t 0 ≠ 0 ↔
      ∃ i ∈ occupiedList s, isE s i = false ∧ targetIdx s i = t) ∧
    ((step s).magnetic.getD t 0 ≠ 0 ↔
      ∃ i ∈ occupiedList s, isE s i = true ∧ targetIdx s i = t) := by
  have ht : t < N := hjt ▸ targetIdx_lt s j
  refine ⟨?_, ?_, ?_⟩
  · rw [step_direction_getD s t ht,
      lastDirAux_of_max s t _ j (occupiedList_pairwise s) hj hjt hmax]
    rfl
  · rw [step_electric_getD s t ht]
    constructor
    · intro h
      have hany : (occupiedList s).any (fun i => !(isE s i) && (targetIdx s i == t)) = true := by
        by_contra hc
        rw [if_neg hc] at h
        exact h rfl
      obtain ⟨i, hi, hp⟩ := List.any_eq_true.mp hany
      simp only [Bool.and_eq_true, Bool.not_eq_true', beq_iff_eq] at hp
      exact ⟨i, hi, hp.1, hp.2⟩
    · rintro ⟨i, hi, hiE, hit⟩
      have hany : (occupiedList s).any (fun i => !(isE s i) && (targetIdx s i == t)) = true :=
        List.any_eq_true.mpr ⟨i, hi, by simp [hiE, hit]⟩
      rw [if_pos hany]
      exact one_ne_zero
  · rw [step_magnetic_getD s t ht]
    constructor
    · intro h
      have hany : (occupiedList s).any (fun i => (isE s i) && (targetIdx s i == t)) = true := by
        by_contra hc
        rw [if_neg hc] at h
        exact h rfl
      obtain ⟨i, hi, hp⟩ := List.any_eq_true.mp hany
      simp only [Bool.and_eq_true, beq_iff_eq] at hp
      exact ⟨i, hi, hp.1, hp.2⟩
    · rintro ⟨i, hi, hiE, hit⟩
      have hany : (occupiedList s).any (fun i => (isE s i) && (targetIdx s i == t)) = true :=
        List.any_eq_true.mpr ⟨i, hi, by simp [hiE, hit]⟩
      rw [if_pos hany]
      exact one_ne_zero

theorem C2_witness :
    98 ∈ occupiedList collideState ∧
    (step collideState).direction.getD 49 zeroDir = collideState.direction.getD 98 zeroDir :=
  ⟨by decide, (C2_collision_amended collideState 49 98 (by decide) (by decide) (by decide)).1⟩

theorem foldl_congr_fn {α β : Type} (l : List β) (f g : α → β → α) (a : α)
    (h : ∀ i ∈ l, ∀ acc, f acc i = g acc i) : l.foldl f a = l.foldl g a := by
  induction l generalizing a with
  | nil => rfl
  | cons b l ih =>
    rw [List.foldl_cons, List.foldl_cons, h b (List.mem_cons_self b l) a]
    exact ih _ (fun i hi acc => h i (List.mem_cons_of_mem b hi) acc)

/-- C10: `step` reads the `direction` array only at occupied cells, so two
states with the same flag arrays whose directions agree on every occupied
cell produce identical successor states — stale directions left at inactive
cells never influence the dynamics. -/
theorem C10_stale_directions_harmless (s1 s2 : FieldState)
    (he : s1.electric = s2.electric) (hm : s1.magnetic = s2.magnetic)
    (hd : ∀ i, i < N → isOccupied s1 i = true →
      s1.direction.getD i zeroDir = s2.direction.getD i zeroDir) :
    step s1 = step s2 := by
  have hocc : occupiedList s1 = occupiedList s2 := by
    unfold occupiedList
    apply List.filter_congr
    intro i _
    unfold isOccupied
    rw [he, hm]
  have key : (occupiedList s1).foldl (stepWrites s1)
      (List.replicate N 0, List.replicate N 0, List.replicate N zeroDir) =
      (occupiedList s2).foldl (stepWrites s2)
      (List.replicate N 0, List.replicate N 0, List.replicate N zeroDir) := by
    rw [hocc]
    apply foldl_congr_fn
    intro i hi acc
    obtain ⟨hiN, hiOcc2⟩ := (mem_occupiedList s2 i).mp hi
    have hiOcc1 : isOccupied s1 i = true := by
      unfold isOccupied at hiOcc2 ⊢
      rw [he, hm]
      exact hiOcc2
    have hdir := hd i hiN hiOcc1
    unfold stepWrites targetIdx isE
    rw [he, hdir]
  exact congrArg (fun r => (⟨r.1, r.2.1, r.2.2⟩ : FieldState)) key

theorem C10_witness :
    step (mkE 171 (1, 0, 0)) =
      step ⟨(List.replicate N 0).set 171 1, List.replicate N 0,
        ((List.replicate N zeroDir).set 171 (1, 0, 0)).set 0 (0, 0, 1)⟩ :=
  C10_stale_directions_harmless _ _ (by decide) (by decide) (by decide)

/-! ### History invariants -/

def ZeroOne (l : List Nat) : Prop := ∀ v ∈ l, v = 0 ∨ v = 1

theorem ZeroOne_replicate (n : Nat) : ZeroOne (List.replicate n 0) :=
  fun _ hv => Or.inl (List.eq_of_mem_replicate hv)

theorem ZeroOne_set {l : List Nat} (h : ZeroOne l) (i : Nat) (v : Nat)
    (hv : v = 0 ∨ v = 1) : ZeroOne (l.set i v) :=
  fun w hw => (List.mem_or_eq_of_mem_set hw).elim (h w) (fun hh => hh ▸ hv)

theorem ZeroOne_getD {l : List Nat} (h : ZeroOne l) (i : Nat) :
    l.getD i 0 = 0 ∨ l.getD i 0 = 1 := by
  by_cases hi : i < l.length
  · rw [List.getD_eq_getElem _ _ hi]
    exact h _ (List.getElem_mem hi)
  · rw [List.getD_eq_default _ _ (Nat.le_of_not_lt hi)]
    exact Or.inl rfl

def FieldZeroOne (s : FieldState) : Prop := ZeroOne s.electric ∧ ZeroOne s.magnetic

theorem FieldZeroOne_inject (s : FieldState) (t : Nat) (d : Dir) :
    FieldZeroOne (inject s t d) :=
  ⟨ZeroOne_set (ZeroOne_replicate N) t 1 (Or.inr rfl), ZeroOne_replicate N⟩

theorem foldl_writes_ZeroOne (s : FieldState) (l : List Nat) :
    ∀ (e b : List Nat) (d : List Dir), ZeroOne e → ZeroOne b →
      ZeroOne (l.foldl (stepWrites s) (e, b, d)).1 ∧
      ZeroOne (l.foldl (stepWrites s) (e, b, d)).2.1 := by
  induction l with
  | nil => intro e b d he hb; exact ⟨he, hb⟩
  | cons i l ih =>
    intro e b d he hb
    rw [List.foldl_cons]
    by_cases h : isE s i
    · rw [show stepWrites s (e, b, d) i =
          (e, b.set (targetIdx s i) 1, d.set (targetIdx s i) (s.direction.getD i zeroDir))
        from by simp [stepWrites, h]]
      exact ih _ _ _ he (ZeroOne_set hb _ 1 (Or.inr rfl))
    · rw [show stepWrites s (e, b, d) i =
          (e.set (targetIdx s i) 1, b, d.set (targetIdx s i) (s.direction.getD i zeroDir))
        from by simp [stepWrites, h]]
      exact ih _ _ _ (ZeroOne_set he _ 1 (Or.inr rfl)) hb

theorem FieldZeroOne_step (s : FieldState) : FieldZeroOne (step s) := by
  have h := foldl_writes_ZeroOne s (occupiedList s)
    (List.replicate N 0) (List.replicate N 0) (List.replicate N zeroDir)
    (ZeroOne_replicate N) (ZeroOne_replicate N)
  exact ⟨by rw [step_electric_eq]; exact h.1, by rw [step_magnetic_eq]; exact h.2⟩

def AppGood (a : AppState) : Prop :=
  FieldZeroOne a.field ∧ ZeroOne a.eHistory ∧ ZeroOne a.mHistory

theorem AppGood_sample {a : AppState} (h : AppGood a) : AppGood (sample a) := by
  refine ⟨h.1, ?_, ?_⟩
  · intro v hv
    rcases List.mem_append.mp hv with h1 | h2
    · exact h.2.1 v h1
    · rw [List.mem_singleton.mp h2]
      exact ZeroOne_getD h.1.1 _
  · intro v hv
    rcases List.mem_append.mp hv with h1 | h2
    · exact h.2.2 v h1
    · rw [List.mem_singleton.mp h2]
      exact ZeroOne_getD h.1.2 _

theorem AppGood_applyOp {a : AppState} (h : AppGood a) (op : Op) :
    AppGood (applyOp a op) := by
  cases op with
  | opInject i d => exact AppGood_sample ⟨FieldZeroOne_inject _ _ _, h.2⟩
  | opStep => exact AppGood_sample ⟨FieldZeroOne_step _, h.2⟩

theorem AppGood_initApp : AppGood initApp :=
  AppGood_sample ⟨⟨ZeroOne_replicate N, ZeroOne_replicate N⟩,
    fun v hv => absurd hv (List.not_mem_nil v),
    fun v hv => absurd hv (List.not_mem_nil v)⟩

theorem AppGood_runOps (l : List Op) : ∀ a : AppState, AppGood a → AppGood (runOps a l) := by
  induction l with
  | nil => intro a h; exact h
  | cons op l ih => intro a h; exact ih _ (AppGood_applyOp h op)

def Synced (a : AppState) : Prop :=
  a.eHistory.getLast? = some (a.field.electric.getD centerIdx 0) ∧
  a.mHistory.getLast? = some (a.field.magnetic.getD centerIdx 0)

theorem Synced_sample (a : AppState) : Synced (sample a) :=
  ⟨List.getLast?_concat _, List.getLast?_concat _⟩

theorem Synced_applyOp (a : AppState) (op : Op) : Synced (applyOp a op) := by
  cases op <;> exact Synced_sample _

theorem Synced_runOps (l : List Op) : ∀ a : AppState, Synced a → Synced (runOps a l) := by
  induction l with
  | nil => intro a h; exact h
  | cons op l ih => intro a _; exact ih _ (Synced_applyOp a op)

theorem applyOp_hist_length (a : AppState) (op : Op) :
    (applyOp a op).eHistory.length = a.eHistory.length + 1 ∧
    (applyOp a op).mHistory.length = a.mHistory.length + 1 := by
  cases op <;> simp [applyOp, sample]

theorem runOps_hist_length (l : List Op) : ∀ a : AppState,
    (runOps a l).eHistory.length = a.eHistory.length + l.length ∧
    (runOps a l).mHistory.length = a.mHistory.length + l.length := by
  induction l with
  | nil => intro a; exact ⟨rfl, rfl⟩
  | cons op l ih =>
    intro a
    have h := ih (applyOp a op)
    have hl := applyOp_hist_length a op
    refine ⟨?_, ?_⟩
    · show (runOps (applyOp a op) l).eHistory.length = _
      rw [h.1, hl.1, List.length_cons]
      omega
    · show (runOps (applyOp a op) l).mHistory.length = _
      rw [h.2, hl.2, List.length_cons]
      omega

/-- C8: starting from the construction-time sample, after `k` sampled
operations (each injection or step followed by one sample) both history
sequences have exactly `1 + k` entries, every entry is 0 or 1, and the last
entry of each sequence is the center cell's current flag value. -/
theorem C8_history (l : List Op) :
    (runOps initApp l).eHistory.length = 1 + l.length ∧
    (runOps initApp l).mHistory.length = 1 + l.length ∧
    (∀ v ∈ (runOps initApp l).eHistory, v = 0 ∨ v = 1) ∧
    (∀ v ∈ (runOps initApp l).mHistory, v = 0 ∨ v = 1) ∧
    (runOps initApp l).eHistory.getLast? =
      some ((runOps initApp l).field.electric.getD centerIdx 0) ∧
    (runOps initApp l).mHistory.getLast? =
      some ((runOps initApp l).field.magnetic.getD centerIdx 0) := by
  have hlen := runOps_hist_length l initApp
  have hgood := AppGood_runOps l initApp AppGood_initApp
  have hsync := Synced_runOps l initApp (Synced_sample _)
  have he1 : initApp.eHistory.length = 1 := rfl
  have hm1 : initApp.mHistory.length = 1 := rfl
  refine ⟨?_, ?_, hgood.2.1, hgood.2.2, hsync.1, hsync.2⟩
  · rw [hlen.1, he1]
  · rw [hlen.2, hm1]

theorem C6_witness :
    (injectUI initialState 0 0 0 (1, 0, 0)).electric.getD centerIdx 0 = 1 :=
  C6_concrete_scenario.1

theorem C7_witness :
    wrap (-1) GRID_SIZE < GRID_SIZE :=
  (C7_wraparound.2 (-1)).2.2

theorem C8_witness :
    (runOps initApp [Op.opStep]).eHistory.length = 1 + 1 :=
  (C8_history [Op.opStep]).1

/-- C9 (modelled from the spec, `reset` being absent from `src/main.py`):
`reset` is idempotent, and after it both histories are empty and every
activation flag is zero. -/
theorem C9_reset (a : AppState) :
    reset (reset a) = reset a ∧
    (reset a).eHistory.length = 0 ∧ (reset a).mHistory.length = 0 ∧
    (∀ i, i < N → (reset a).field.electric.getD i 0 = 0) ∧
    (∀ i, i < N → (reset a).field.magnetic.getD i 0 = 0) := by
  refine ⟨rfl, rfl, rfl, ?_, ?_⟩
  · intro i _
    rw [show (reset a).field.electric = List.replicate N 0 from rfl, getD_replicate]
    split <;> rfl
  · intro i _
    rw [show (reset a).field.magnetic = List.replicate N 0 from rfl, getD_replicate]
    split <;> rfl

theorem C9_witness :
    reset (reset initApp) = reset initApp ∧
    0 < N ∧ (reset initApp).field.electric.getD 0 0 = 0 :=
  ⟨(C9_reset initApp).1, by decide, (C9_reset initApp).2.2.2.1 0 (by decide)⟩

end PhotonCA
